import Mathlib

/-!
Verification development for the twirp-proto-tester template-generation engine
(protoparser.js). The JavaScript source is shallowly embedded: the linked
protobufjs schema is modelled as a flat arena of named declarations, field
objects carry the attributes the code reads (name, declared type string, rule,
the optional flag, and the link target set by the library), and the recursive
template generator and optional-field extractor are modelled with an explicit
fuel parameter. A result of none at every fuel bound models the fact that the
unguarded JavaScript recursion never returns normally (at runtime it aborts
with a call-stack overflow).
-/

namespace ProtoParser

/-- JSON values as produced by the template generator. JavaScript has a single
number type in which 0 and 0.0 are the same value, so both are Json.num 0. -/
inductive Json where
  | str (s : String)
  | jbool (b : Bool)
  | num (n : Int)
  | arr (elems : List Json)
  | obj (fields : List (String × Json))

/-- A protobufjs Field object, restricted to the attributes the code reads:
field.name, field.type (the declared type string), field.rule (some "repeated"
for repeated fields), field.optional, and field.resolvedType. The latter is
modelled as an optional key into the root arena: some k means the library
linked this field to the declaration stored under k, and the code treats the
link as a message type exactly when that arena entry is a message. -/
structure Field where
  name : String
  type : String
  rule : Option String
  optionalFlag : Bool
  resolved : Option String
deriving DecidableEq

/-- A declaration in the linked schema: a message type (protobuf.Type, with its
name, field list in declaration order, and the nested-declaration map
type.nested) or an enum type (protobuf.Enum, whose value names are listed in
declaration order, matching Object.keys of the values object). -/
inductive Decl where
  | msg (name : String) (fields : List Field) (nested : List (String × Decl))
  | enum (name : String) (values : List String)

/-- The root arena: what the protobufjs Root resolves each type-name string to.
root.lookupType, root.lookupTypeOrEnum and root.lookupEnum are reads of this
table filtered by declaration kind; field.resolved keys also point here. -/
def Root : Type := List (String × Decl)

def declName : Decl → String
  | .msg n _ _ => n
  | .enum n _ => n

def declFields : Decl → List Field
  | .msg _ fs _ => fs
  | .enum _ _ => []

def declNested : Decl → List (String × Decl)
  | .msg _ _ ns => ns
  | .enum _ _ => []

/-- First-match association lookup (reading a JavaScript object property). -/
def jlookup {α : Type} : List (String × α) → String → Option α
  | [], _ => none
  | (k', v) :: rest, k => if k' = k then some v else jlookup rest k

/-- JavaScript object assignment obj[k] = v: overwrites the value in place if
the key exists, otherwise appends the key at the end (insertion order). -/
def objInsert {α : Type} : List (String × α) → String → α → List (String × α)
  | [], k, v => [(k, v)]
  | (k', v') :: rest, k, v =>
    if k' = k then (k', v) :: rest else (k', v') :: objInsert rest k v

/-- root.lookupType: succeeds only on message types (throws otherwise, which a
caller observes as none here). -/
def lookupType (root : Root) (s : String) : Option Decl :=
  match jlookup root s with
  | some (Decl.msg n fs ns) => some (.msg n fs ns)
  | _ => none

/-- root.lookupTypeOrEnum: any resolvable type or enum. -/
def lookupTypeOrEnum (root : Root) (s : String) : Option Decl :=
  jlookup root s

/-- root.lookupEnum: succeeds only on enum types. -/
def lookupEnum (root : Root) (s : String) : Option Decl :=
  match jlookup root s with
  | some (Decl.enum n vs) => some (.enum n vs)
  | _ => none

/-- The switch over primitive type names at the top of getEmptyValueForType.
none means the switch fell through to the default branch. -/
def primitiveDefault : String → Option Json
  | "string" => some (.str "")
  | "bool" => some (.jbool false)
  | "int32" => some (.num 0)
  | "int64" => some (.num 0)
  | "uint32" => some (.num 0)
  | "uint64" => some (.num 0)
  | "sint32" => some (.num 0)
  | "sint64" => some (.num 0)
  | "fixed32" => some (.num 0)
  | "fixed64" => some (.num 0)
  | "sfixed32" => some (.num 0)
  | "sfixed64" => some (.num 0)
  | "float" => some (.num 0)
  | "double" => some (.num 0)
  | "bytes" => some (.str "")
  | _ => none

/-- The default branch of getEmptyValueForType after the timestamp check: try
parentType.nested[fieldType] first, then root.lookupType, then
root.lookupTypeOrEnum, then root.lookupEnum (each catch falls through to the
next lookup). -/
def templateResolve (root : Root) (parent : Decl) (ft : String) : Option Decl :=
  match jlookup (declNested parent) ft with
  | some d => some d
  | none =>
    match lookupType root ft with
    | some d => some d
    | none =>
      match lookupTypeOrEnum root ft with
      | some d => some d
      | none => lookupEnum root ft

/-- Body of getEmptyValueForType, parameterized by the recursive call back into
generateEmptyJsonTemplate (the callback carries the fuel of the caller). For a
message type the source returns the nested template object; for an enum it
returns the first declared value name (or the empty string when the enum has no
values); when nothing resolves it returns the empty string. -/
def getEmptyValueForTypeAux (recur : Decl → Option (List (String × Json)))
    (root : Root) (ft : String) (parent : Decl) : Option Json :=
  match primitiveDefault ft with
  | some v => some v
  | none =>
    if ft = "google.protobuf.Timestamp" then some (.str "")
    else
      match templateResolve root parent ft with
      | some (Decl.msg n fs ns) => (recur (.msg n fs ns)).map Json.obj
      | some (Decl.enum _ vs) => some (.str (vs.headD ""))
      | none => some (.str "")

/-- The field loop of generateEmptyJsonTemplate: for each field compute the
empty value, override it with the empty array when field.rule is repeated, and
assign template[field.name] = value. protobufjs Type.add rejects duplicate
field names, so within this model field names of one message are distinct and
the assignment appends in declaration order. -/
def genTemplateFieldsAux (recur : Decl → Option (List (String × Json)))
    (root : Root) : List Field → Decl → List (String × Json) →
    Option (List (String × Json))
  | [], _, acc => some acc
  | f :: fs, parent, acc =>
    match getEmptyValueForTypeAux recur root f.type parent with
    | none => none
    | some v =>
      genTemplateFieldsAux recur root fs parent
        (acc ++ [(f.name, if f.rule = some "repeated" then Json.arr [] else v)])

/-- generateEmptyJsonTemplate, with fuel counting the remaining recursion
depth. The JavaScript source has no such parameter: a recursion deeper than
every fuel bound is a recursion that never returns (a stack overflow at
runtime). -/
def generateEmptyJsonTemplate (root : Root) : Nat → Decl →
    Option (List (String × Json))
  | 0, _ => none
  | fuel + 1, d =>
    genTemplateFieldsAux (generateEmptyJsonTemplate root fuel) root
      (declFields d) d []

/-- getEmptyValueForType at a given recursion-depth budget. -/
def getEmptyValueForType (root : Root) (fuel : Nat) (ft : String)
    (parent : Decl) : Option Json :=
  getEmptyValueForTypeAux (generateEmptyJsonTemplate root fuel) root ft parent

/-- The check field.resolvedType instanceof protobuf.Type in the extractor:
the field was linked and its link target in the arena is a message type. -/
def resolvedMsg (root : Root) (f : Field) : Option Decl :=
  match f.resolved with
  | some k =>
    match jlookup root k with
    | some (Decl.msg n fs ns) => some (.msg n fs ns)
    | _ => none
  | none => none

/-- The fallback branch of the extractor: type.nested[field.type] when it is a
message type. -/
def nestedMsgLookup (t : Decl) (ft : String) : Option Decl :=
  match jlookup (declNested t) ft with
  | some (Decl.msg n fs ns) => some (.msg n fs ns)
  | _ => none

/-- The message (if any) into which extractOptionalFieldsRecursive recurses for
a field: field.resolvedType when it is a message type, otherwise the nested
type of the same name inside the current message. -/
def extractTarget (root : Root) (t : Decl) (f : Field) : Option Decl :=
  match resolvedMsg root f with
  | some m => some m
  | none => nestedMsgLookup t f.type

/-- The field loop of extractOptionalFieldsRecursive. Occurrence paths are
kept as component lists (the source joins components with dots as it goes;
field names never contain dots, so the two presentations agree and
getOptionalFieldsFromTypeWithExplicit below produces the joined strings). The
typePath is built as the literal dotted string the source compares against the
scanner output. Appends happen in source order: the hit for the current field,
then the paths found in its subtree, then the remaining fields. -/
def extractFieldsAux
    (recur : Decl → List String → String → Option (List (List String)))
    (root : Root) (expl : List String) :
    List Field → Decl → List String → String → Option (List (List String))
  | [], _, _, _ => some []
  | f :: fs, t, fAcc, tAcc =>
    let fieldPath := fAcc ++ [f.name]
    let typePath :=
      if tAcc = "" then declName t ++ "." ++ f.name
      else tAcc ++ "." ++ declName t ++ "." ++ f.name
    let hit := if typePath ∈ expl then [fieldPath] else []
    let nextT := if tAcc = "" then declName t else tAcc ++ "." ++ declName t
    match (match extractTarget root t f with
           | some m => recur m fieldPath nextT
           | none => some []) with
    | none => none
    | some sub =>
      match extractFieldsAux recur root expl fs t fAcc tAcc with
      | none => none
      | some rest => some (hit ++ sub ++ rest)

/-- extractOptionalFieldsRecursive with an explicit recursion-depth budget;
none at every budget models the unguarded recursion never returning. -/
def extractOptionalFieldsRecursive (root : Root) (expl : List String) :
    Nat → Decl → List String → String → Option (List (List String))
  | 0, _, _, _ => none
  | fuel + 1, t, fAcc, tAcc =>
    extractFieldsAux (extractOptionalFieldsRecursive root expl fuel) root expl
      (declFields t) t fAcc tAcc

/-- getOptionalFieldsFromTypeWithExplicit: run the recursive walk from the
request type with empty prefixes and emit the dotted occurrence paths. -/
def getOptionalFieldsFromTypeWithExplicit (root : Root) (expl : List String)
    (fuel : Nat) (t : Decl) : Option (List String) :=
  (extractOptionalFieldsRecursive root expl fuel t [] "").map
    (fun ps => ps.map (fun p => String.intercalate "." p))

end ProtoParser

namespace ProtoScan

/-- Characters matched by the regex class backslash-w. -/
def isWordChar (c : Char) : Bool := c.isAlphanum || c = '_'

/-- Characters matched by the regex class of backslash-w together with the
dot, used for the declared type in an optional field declaration. -/
def isWordDotChar (c : Char) : Bool := isWordChar c || c = '.'

/-- Drop leading whitespace (the regex piece of zero or more spaces). -/
def dropWS : List Char → List Char
  | [] => []
  | c :: rest => if c.isWhitespace then dropWS rest else c :: rest

/-- Longest run of word characters at the front. -/
def spanWord : List Char → List Char × List Char
  | [] => ([], [])
  | c :: rest =>
    if isWordChar c then
      let (w, r) := spanWord rest
      (c :: w, r)
    else ([], c :: rest)

/-- Longest run of word-or-dot characters at the front. -/
def spanWordDot : List Char → List Char × List Char
  | [] => ([], [])
  | c :: rest =>
    if isWordDotChar c then
      let (w, r) := spanWordDot rest
      (c :: w, r)
    else ([], c :: rest)

/-- Strip an expected literal from the front of the input. -/
def dropLit : List Char → List Char → Option (List Char)
  | [], cs => some cs
  | _ :: _, [] => none
  | l :: ls, c :: cs => if c = l then dropLit ls cs else none

/-- Does the input start with the given literal? -/
def startsWithChars (lit cs : List Char) : Bool := (dropLit lit cs).isSome

/-- Trim leading and trailing whitespace, like the JavaScript string trim. -/
def trimChars (cs : List Char) : List Char :=
  (dropWS (dropWS cs.reverse).reverse)

/-- Split the content at newline characters, like the JavaScript string split
on a newline. -/
def splitLines : List Char → List (List Char)
  | [] => [[]]
  | c :: rest =>
    let r := splitLines rest
    if c = '\n' then [] :: r
    else
      match r with
      | [] => [[c]]
      | l :: ls => (c :: l) :: ls

/-- The anchored message-declaration regex applied to the trimmed line:
optional leading whitespace, the literal word message, at least one whitespace
character, then the captured message name. -/
def matchMessageDecl (s : List Char) : Option String :=
  match dropLit "message".toList (dropWS s) with
  | none => none
  | some rest =>
    match rest with
    | [] => none
    | c :: rest2 =>
      if c.isWhitespace then
        match spanWord (dropWS rest2) with
        | ([], _) => none
        | (w, _) => some (String.mk w)
      else none

/-- The optional-field regex tried at one start position: the literal word
optional, whitespace, a declared type of word-or-dot characters, whitespace,
the captured field name, optional whitespace, and an equals sign. Greedy
matching without backtracking coincides with the regex here because each
greedy run is delimited by a mandatory character of a disjoint class. -/
def matchOptionalAt (cs : List Char) : Option String :=
  match dropLit "optional".toList cs with
  | none => none
  | some r0 =>
    match r0 with
    | [] => none
    | c :: r1 =>
      if c.isWhitespace then
        match spanWordDot (dropWS r1) with
        | ([], _) => none
        | (_ :: _, r3) =>
          match r3 with
          | [] => none
          | c2 :: r4 =>
            if c2.isWhitespace then
              match spanWord (dropWS r4) with
              | ([], _) => none
              | (w, r6) =>
                match dropWS r6 with
                | '=' :: _ => some (String.mk w)
                | _ => none
            else none
      else none

/-- Leftmost search for the optional-field pattern, like an unanchored
JavaScript regex match over the line. -/
def findOptionalField : List Char → Option String
  | [] => none
  | c :: rest =>
    match matchOptionalAt (c :: rest) with
    | some w => some w
    | none => findOptionalField rest

/-- Pop the message stack once per closing brace, stopping when the stack is
empty (the loop over closeBraces in the source). JavaScript pushes and pops at
the end of the array, so the stack grows at the tail of this list. -/
def popN : Nat → List String → List String
  | 0, l => l
  | n + 1, l => if l = [] then l else popN n l.dropLast

/-- Scanner state: the stack of open message names, the running brace depth
(tracked by the source but never read), and the set of recorded paths in
insertion order. -/
structure ScanState where
  stack : List String
  depth : Int
  found : List String

/-- One line of parseExplicitOptionalFields: skip comments and blank lines;
push on a message declaration; pop once per closing brace on the line while
the stack is non-empty (whatever block that brace closes); then, on a line
starting with the optional keyword, record the dotted path of the current
stack and the field name, deduplicated like a JavaScript Set. -/
def scanLine (st : ScanState) (line : List Char) : ScanState :=
  let trimmed := trimChars line
  if startsWithChars "//".toList trimmed || trimmed = [] then st
  else
    let stack1 :=
      match matchMessageDecl trimmed with
      | some n => st.stack ++ [n]
      | none => st.stack
    let opens := (line.filter (fun c => c = '{')).length
    let closes := (line.filter (fun c => c = '}')).length
    let depth1 := st.depth + (opens : Int) - (closes : Int)
    let stack2 := popN closes stack1
    let found1 :=
      if startsWithChars "optional ".toList trimmed then
        match findOptionalField trimmed with
        | some fn =>
          let fullPath :=
            if stack2 ≠ [] then String.intercalate "." stack2 ++ "." ++ fn
            else fn
          if fullPath ∈ st.found then st.found else st.found ++ [fullPath]
        | none => st.found
      else st.found
    ⟨stack2, depth1, found1⟩

/-- parseExplicitOptionalFields: fold the line scanner over the lines of the
proto source. -/
def parseExplicitOptionalFields (protoContent : String) : List String :=
  ((splitLines protoContent.toList).foldl scanLine ⟨[], 0, []⟩).found

end ProtoScan

namespace ProtoParser

/-- A node of the parsed namespace tree as the catalog walk sees it: a service
(reduced to its ordered method list of name and declared request type, the only
attributes the walk reads), a namespace with nested entries, or any other
object without nested entries, which the walk skips. Entry names are dropped
because the walk never uses them. -/
inductive NsEntry where
  | svc (methods : List (String × String))
  | space (children : List NsEntry)
  | leaf

/-- The methods encountered by the recursive namespace walk, in visit order:
entries in order; a service contributes its methods; a namespace is recursed
into in place. The source threads one mutable method map through this walk;
folding the map updates over this list is the same computation. -/
def methodsOfList : List NsEntry → List (String × String)
  | [] => []
  | NsEntry.svc ms :: rest => ms ++ methodsOfList rest
  | NsEntry.space cs :: rest => methodsOfList cs ++ methodsOfList rest
  | NsEntry.leaf :: rest => methodsOfList rest

/-- The per-method body of extractServices: look the request type up in the
root; on failure the catch stores an empty object, and a template recursion
that never returns raises a range error absorbed by the same catch, so fuel
exhaustion also lands on the empty object. -/
def processMethodTemplate (root : Root) (fuel : Nat) (rt : String) :
    List (String × Json) :=
  match lookupType root rt with
  | none => []
  | some d => (generateEmptyJsonTemplate root fuel d).getD []

/-- The per-method body of extractOptionalFields, with the empty list as the
catch fallback. -/
def processMethodOptional (root : Root) (expl : List String) (fuel : Nat)
    (rt : String) : List String :=
  match lookupType root rt with
  | none => []
  | some d => (getOptionalFieldsFromTypeWithExplicit root expl fuel d).getD []

/-- extractServices: build the flat method catalog of JSON templates, keyed by
bare method name with JavaScript assignment semantics (a later method of the
same name overwrites the value). -/
def extractServices (root : Root) (fuel : Nat) (entries : List NsEntry) :
    List (String × List (String × Json)) :=
  (methodsOfList entries).foldl
    (fun acc m => objInsert acc m.1 (processMethodTemplate root fuel m.2)) []

/-- extractOptionalFields: the same walk building the per-method optional
field lists. -/
def extractOptionalFields (root : Root) (expl : List String) (fuel : Nat)
    (entries : List NsEntry) : List (String × List String) :=
  (methodsOfList entries).foldl
    (fun acc m => objInsert acc m.1 (processMethodOptional root expl fuel m.2))
    []

/-- A component path addresses a key of a JSON object at the correct nesting
depth: the first component is a key of the object, and when further components
follow, the value under that key is itself an object addressed by the rest. -/
def addressesB : List (String × Json) → List String → Bool
  | _, [] => true
  | kvs, [f] => (jlookup kvs f).isSome
  | kvs, f :: a :: r =>
    match jlookup kvs f with
    | some (Json.obj kvs2) => addressesB kvs2 (a :: r)
    | _ => false

/-- Per-field agreement between the extractor walk and the template walk,
parameterized by the recursive check on the subtree. Whenever the extractor
recurses into a message for this field, the field must be singular, its
declared type must be neither a primitive keyword nor the literal timestamp
name, the template-side resolution must reach the same message declaration
(for a linked field this pins the link key to the declared type string with no
shadowing nested entry, which is how the protobufjs linker behaves for
globally resolved types), and the subtree must again be consistent. -/
def fieldOKAux (check : Decl → Bool) (root : Root) (t : Decl) (f : Field) :
    Bool :=
  match resolvedMsg root f with
  | some m' =>
    decide (f.rule ≠ some "repeated") &&
    (primitiveDefault f.type).isNone &&
    decide (f.type ≠ "google.protobuf.Timestamp") &&
    decide (f.resolved = some f.type) &&
    (jlookup (declNested t) f.type).isNone &&
    check m'
  | none =>
    match nestedMsgLookup t f.type with
    | some m' =>
      decide (f.rule ≠ some "repeated") &&
      (primitiveDefault f.type).isNone &&
      decide (f.type ≠ "google.protobuf.Timestamp") &&
      check m'
    | none => true

/-- Bounded-depth consistency of a schema subtree: field names of every
reachable message are distinct (protobufjs enforces this) and every field
passes the per-field agreement check. -/
def consistentB (root : Root) : Nat → Decl → Bool
  | 0, _ => false
  | fuel + 1, t =>
    decide (((declFields t).map Field.name).Nodup) &&
    (declFields t).all (fieldOKAux (consistentB root fuel) root t)

end ProtoParser

namespace ProtoParser

/-! Concrete schemas exercising the claims. Each arena entry is keyed by the
string under which the protobufjs root resolves it; the resolved key stored on
a linked field points into the same arena. -/

/-- Proto source whose message M encloses an enum block followed by an
explicitly optional field. -/
def textC10 : String :=
  "message M \x7b\n  enum E \x7b\n    A = 0;\n  \x7d\n  optional string x = 1;\n\x7d\n"

/-- The linked message M of textC10. -/
def declM10 : Decl :=
  .msg "M" [⟨"x", "string", some "optional", true, none⟩]
    [("E", .enum "E" ["A"])]

def rootC10 : Root := [("M", declM10)]

/-- Message Inner with an explicitly optional string field x. -/
def declInner : Decl := .msg "Inner" [⟨"x", "string", some "optional", true, none⟩] []

/-- Message Outer embedding the nested Inner twice, as fields a and b. -/
def declOuter : Decl :=
  .msg "Outer"
    [⟨"a", "Inner", none, false, some "Outer.Inner"⟩,
     ⟨"b", "Inner", none, false, some "Outer.Inner"⟩]
    [("Inner", declInner)]

def rootC3 : Root := [("Outer", declOuter), ("Outer.Inner", declInner)]

/-- Proto source declaring Inner nested in Outer with fields a and b. -/
def textC3 : String :=
  "message Outer \x7b\n  message Inner \x7b\n    optional string x = 1;\n  \x7d\n  Inner a = 1;\n  Inner b = 2;\n\x7d\n"

/-- The same source extended with a request message R that contains Outer as
a field. -/
def textC3b : String :=
  "message Outer \x7b\n  message Inner \x7b\n    optional string x = 1;\n  \x7d\n  Inner a = 1;\n  Inner b = 2;\n\x7d\nmessage R \x7b\n  Outer o = 1;\n\x7d\n"

/-- The linked request message R of textC3b. -/
def declR : Decl := .msg "R" [⟨"o", "Outer", none, false, some "Outer"⟩] []

def rootC3b : Root :=
  [("Outer", declOuter), ("Outer.Inner", declInner), ("R", declR)]

/-- Proto source with a repeated field of a nested message type that carries
an explicitly optional field. -/
def textC1 : String :=
  "message Req \x7b\n  message Inner \x7b\n    optional string x = 1;\n  \x7d\n  repeated Inner items = 1;\n\x7d\n"

/-- The linked request message of textC1: items is repeated of type Inner. -/
def declReq : Decl :=
  .msg "Req" [⟨"items", "Inner", some "repeated", false, some "Req.Inner"⟩]
    [("Inner", declInner)]

def rootC1 : Root := [("Req", declReq), ("Req.Inner", declInner)]

/-- A message that embeds itself as a singular field: message M with a field
next of type M. -/
def declM2 : Decl := .msg "M" [⟨"next", "M", none, false, some "M"⟩] []

def rootC2 : Root := [("M", declM2)]

/-- The pre-seeded google.protobuf.Timestamp message defined by
parseProtoContent: a seconds int64 field and a nanos int32 field. -/
def timestampDecl : Decl :=
  .msg "Timestamp"
    [⟨"seconds", "int64", none, false, none⟩,
     ⟨"nanos", "int32", none, false, none⟩] []

def rootTs : Root := [("Timestamp", timestampDecl)]

/-- A parent message with no fields and no nested declarations. -/
def dummyParent : Decl := .msg "P" [] []

/-- An arena resolving Color to an enum whose declared value order is B then
A, so that declaration order differs from alphabetical order. -/
def rootEnum : Root := [("Color", .enum "Color" ["B", "A"])]

/-- Witness schema for the amended subset law: Outer embedding a top-level
Inner twice through linked singular fields. -/
def declOuterW : Decl :=
  .msg "Outer"
    [⟨"a", "Inner", none, false, some "Inner"⟩,
     ⟨"b", "Inner", none, false, some "Inner"⟩] []

def rootW : Root := [("Outer", declOuterW), ("Inner", declInner)]

/-- A namespace tree with one service holding a method whose request type is
not resolvable next to one whose request type is. -/
def entriesC7 : List NsEntry := [NsEntry.svc [("Bad", "Missing"), ("Good", "T")]]

def declT : Decl := .msg "T" [⟨"id", "int32", none, false, none⟩] []

def rootC7 : Root := [("T", declT)]

/-- The request type stored under the last occurrence of a method name in a
visit-ordered method list; the flat catalog folds overwrite in this order. -/
def lastRequest : List (String × String) → String → Option String
  | [], _ => none
  | (mn, rt) :: rest, k =>
    match lastRequest rest k with
    | some r => some r
    | none => if mn = k then some rt else none

/-! Helper lemmas about association lists and the field folds. -/

theorem jlookup_append_of_not_mem {α : Type} (a b : List (String × α))
    (k : String) (h : k ∉ a.map Prod.fst) :
    jlookup (a ++ b) k = jlookup b k := by
  induction a with
  | nil => rfl
  | cons kv rest ih =>
    obtain ⟨k0, v0⟩ := kv
    simp only [List.map_cons, List.mem_cons, not_or] at h
    simp only [List.cons_append, jlookup]
    rw [if_neg (fun hk => h.1 hk.symm)]
    exact ih h.2

theorem jlookup_objInsert {α : Type} (acc : List (String × α)) (k : String)
    (v : α) (k' : String) :
    jlookup (objInsert acc k v) k' = if k = k' then some v else jlookup acc k' := by
  induction acc with
  | nil => simp [objInsert, jlookup]
  | cons kv rest ih =>
    obtain ⟨k0, v0⟩ := kv
    by_cases h0 : k0 = k
    · subst h0
      simp only [objInsert, if_pos rfl, jlookup]
      by_cases h1 : k0 = k'
      · simp [h1]
      · simp [h1]
    · simp only [objInsert, if_neg h0]
      by_cases h1 : k0 = k'
      · have hk : ¬ k = k' := fun hk => h0 (h1.trans hk.symm)
        simp [jlookup, h1, hk]
      · simp [jlookup, h1, ih]

theorem genTemplateFieldsAux_acc (recur : Decl → Option (List (String × Json)))
    (root : Root) : ∀ (fs : List Field) (parent : Decl)
    (acc kvs : List (String × Json)),
    genTemplateFieldsAux recur root fs parent acc = some kvs →
    ∃ tail, kvs = acc ++ tail ∧ ∀ kv ∈ tail, kv.1 ∈ fs.map Field.name := by
  intro fs
  induction fs with
  | nil =>
    intro parent acc kvs h
    simp only [genTemplateFieldsAux, Option.some.injEq] at h
    exact ⟨[], by simp [h], by simp⟩
  | cons f fs ih =>
    intro parent acc kvs h
    simp only [genTemplateFieldsAux] at h
    cases hv : getEmptyValueForTypeAux recur root f.type parent with
    | none => rw [hv] at h; cases h
    | some v =>
      rw [hv] at h
      obtain ⟨tail, htail, hnames⟩ := ih parent _ kvs h
      refine ⟨(f.name, if f.rule = some "repeated" then Json.arr [] else v) :: tail,
        by rw [htail, List.append_assoc]; rfl, ?_⟩
      intro kv hkv
      rcases List.mem_cons.mp hkv with hk | hk
      · rw [hk]; simp
      · simp only [List.map_cons, List.mem_cons]
        exact Or.inr (hnames kv hk)

theorem c4_fields (recur : Decl → Option (List (String × Json))) (root : Root) :
    ∀ (fs : List Field) (parent : Decl) (acc kvs : List (String × Json))
    (f : Field),
    genTemplateFieldsAux recur root fs parent acc = some kvs →
    (fs.map Field.name).Nodup →
    f.name ∉ acc.map Prod.fst →
    f ∈ fs → f.rule = some "repeated" →
    jlookup kvs f.name = some (Json.arr []) := by
  intro fs
  induction fs with
  | nil => intro _ _ _ f _ _ _ hf _; cases hf
  | cons g fs ih =>
    intro parent acc kvs f h hnd hacc hf hrep
    simp only [genTemplateFieldsAux] at h
    cases hv : getEmptyValueForTypeAux recur root g.type parent with
    | none => rw [hv] at h; cases h
    | some v =>
      rw [hv] at h
      rcases List.mem_cons.mp hf with hfg | hfs
      · subst hfg
        rw [hrep] at h
        simp only [if_pos rfl] at h
        obtain ⟨tail, htail, _⟩ := genTemplateFieldsAux_acc recur root fs parent _ kvs h
        rw [htail, List.append_assoc]
        rw [jlookup_append_of_not_mem _ _ _ hacc]
        simp [jlookup]
      · simp only [List.map_cons, List.nodup_cons] at hnd
        have hne : f.name ≠ g.name := by
          intro he
          exact hnd.1 (he ▸ List.mem_map_of_mem Field.name hfs)
        refine ih parent _ kvs f h hnd.2 ?_ hfs hrep
        simp only [List.map_append, List.mem_append, List.map_cons, not_or]
        exact ⟨hacc, by simp [hne]⟩

theorem lastRequest_mem : ∀ (l : List (String × String)) (k r : String),
    lastRequest l k = some r → (k, r) ∈ l := by
  intro l
  induction l with
  | nil => intro k r h; cases h
  | cons kv rest ih =>
    obtain ⟨mn, rt⟩ := kv
    intro k r h
    simp only [lastRequest] at h
    cases hrest : lastRequest rest k with
    | some r0 =>
      rw [hrest] at h
      cases h
      exact List.mem_cons_of_mem _ (ih k r hrest)
    | none =>
      rw [hrest] at h
      by_cases hmn : mn = k
      · rw [if_pos hmn] at h
        cases h
        subst hmn
        exact List.mem_cons_self _ _
      · rw [if_neg hmn] at h
        cases h

theorem lastRequest_isSome_of_mem : ∀ (l : List (String × String))
    (k v : String), (k, v) ∈ l → (lastRequest l k).isSome := by
  intro l
  induction l with
  | nil => intro k v h; cases h
  | cons kv rest ih =>
    obtain ⟨mn, rt⟩ := kv
    intro k v h
    simp only [lastRequest]
    cases hrest : lastRequest rest k with
    | some r0 => simp
    | none =>
      rcases List.mem_cons.mp h with hh | ht
      · cases hh
        simp
      · have := ih k v ht
        rw [hrest] at this
        cases this

theorem lastRequest_eq_of_unique (l : List (String × String)) (k v : String)
    (hmem : (k, v) ∈ l) (huniq : ∀ v', (k, v') ∈ l → v' = v) :
    lastRequest l k = some v := by
  have hs := lastRequest_isSome_of_mem l k v hmem
  cases hl : lastRequest l k with
  | none => rw [hl] at hs; cases hs
  | some r => rw [huniq r (lastRequest_mem l k r hl)]

theorem jlookup_foldl_objInsert {α : Type} (g : String → α) :
    ∀ (l : List (String × String)) (acc : List (String × α)) (k : String),
    jlookup (l.foldl (fun a m => objInsert a m.1 (g m.2)) acc) k =
      match lastRequest l k with
      | some rt => some (g rt)
      | none => jlookup acc k := by
  intro l
  induction l with
  | nil => intro acc k; rfl
  | cons kv rest ih =>
    obtain ⟨mn, rt⟩ := kv
    intro acc k
    simp only [List.foldl_cons, lastRequest]
    rw [ih]
    cases hrest : lastRequest rest k with
    | some r0 => rfl
    | none =>
      simp only [jlookup_objInsert]
      by_cases hmn : mn = k
      · rw [if_pos hmn, if_pos hmn]
      · rw [if_neg hmn, if_neg hmn]

theorem mem_if_singleton {α : Type} (c : Prop) [Decidable c] (x p : α)
    (h : p ∈ (if c then [x] else [])) : p = x := by
  split at h
  · exact List.mem_singleton.mp h
  · cases h

theorem resolvedMsg_eq_some (root : Root) (f : Field) (m : Decl)
    (h : resolvedMsg root f = some m) :
    ∃ k n fs ns, f.resolved = some k ∧
      jlookup root k = some (Decl.msg n fs ns) ∧ m = Decl.msg n fs ns := by
  cases hk : f.resolved with
  | none => simp only [resolvedMsg, hk] at h; cases h
  | some k =>
    simp only [resolvedMsg, hk] at h
    cases hj : jlookup root k with
    | none => rw [hj] at h; cases h
    | some d =>
      rw [hj] at h
      cases d with
      | msg n fs ns =>
        cases h
        exact ⟨k, n, fs, ns, rfl, hj, rfl⟩
      | enum _ _ => cases h

theorem nestedMsgLookup_eq_some (t : Decl) (ft : String) (m : Decl)
    (h : nestedMsgLookup t ft = some m) :
    ∃ n fs ns, jlookup (declNested t) ft = some (Decl.msg n fs ns) ∧
      m = Decl.msg n fs ns := by
  cases hj : jlookup (declNested t) ft with
  | none => simp only [nestedMsgLookup, hj] at h; cases h
  | some d =>
    simp only [nestedMsgLookup, hj] at h
    cases d with
    | msg n fs ns =>
      cases h
      exact ⟨n, fs, ns, rfl, rfl⟩
    | enum _ _ => cases h

theorem templateResolve_of_resolvedMsg (root : Root) (t : Decl) (f : Field)
    (m : Decl) (hres : resolvedMsg root f = some m)
    (hkey : f.resolved = some f.type)
    (hnest : jlookup (declNested t) f.type = none) :
    templateResolve root t f.type = some m := by
  obtain ⟨k, n, fs, ns, hk, hj, hm⟩ := resolvedMsg_eq_some root f m hres
  rw [hkey] at hk
  injection hk with hk
  subst hk
  have hlt : lookupType root f.type = some m := by
    unfold lookupType
    rw [hj, hm]
  unfold templateResolve
  rw [hnest, hlt]

theorem templateResolve_of_nested (root : Root) (t : Decl) (ft : String)
    (m : Decl) (hn : nestedMsgLookup t ft = some m) :
    templateResolve root t ft = some m := by
  obtain ⟨n, fs, ns, hj, hm⟩ := nestedMsgLookup_eq_some t ft m hn
  unfold templateResolve
  rw [hj, hm]

theorem getEmptyValueForTypeAux_msg
    (recur : Decl → Option (List (String × Json))) (root : Root) (ft : String)
    (parent : Decl) (n : String) (fs : List Field)
    (ns : List (String × Decl))
    (h1 : primitiveDefault ft = none) (h2 : ft ≠ "google.protobuf.Timestamp")
    (h3 : templateResolve root parent ft = some (.msg n fs ns)) :
    getEmptyValueForTypeAux recur root ft parent
      = (recur (.msg n fs ns)).map Json.obj := by
  simp [getEmptyValueForTypeAux, h1, h2, h3]

theorem c1_value_step (root : Root) (fuel : Nat) (t : Decl) (f : Field)
    (m1 : Decl) (v : Json)
    (hprim : primitiveDefault f.type = none)
    (hts : f.type ≠ "google.protobuf.Timestamp")
    (htr : templateResolve root t f.type = some m1)
    (hmsg : ∃ n fs ns, m1 = Decl.msg n fs ns)
    (hval : getEmptyValueForTypeAux (generateEmptyJsonTemplate root fuel) root
      f.type t = some v) :
    ∃ kvs1, generateEmptyJsonTemplate root fuel m1 = some kvs1 ∧
      v = Json.obj kvs1 := by
  obtain ⟨n, fs, ns, hm⟩ := hmsg
  subst hm
  rw [getEmptyValueForTypeAux_msg (generateEmptyJsonTemplate root fuel) root
    f.type t n fs ns hprim hts htr] at hval
  obtain ⟨kvs1, hk, hv⟩ := Option.map_eq_some'.mp hval
  exact ⟨kvs1, hk, hv.symm⟩

theorem addressesB_cons_obj (kvs kvs1 : List (String × Json)) (k : String)
    (rest : List String) (h : jlookup kvs k = some (Json.obj kvs1))
    (hr : addressesB kvs1 rest = true) :
    addressesB kvs (k :: rest) = true := by
  cases rest with
  | nil => simp [addressesB, h]
  | cons a r =>
    simp only [addressesB, h]
    exact hr

theorem c1_fields_subset (root : Root) (expl : List String) (fuel : Nat)
    (IH : ∀ t fAcc tAcc out kvs, consistentB root fuel t = true →
      extractOptionalFieldsRecursive root expl fuel t fAcc tAcc = some out →
      generateEmptyJsonTemplate root fuel t = some kvs →
      ∀ p ∈ out, ∃ q, p = fAcc ++ q ∧ addressesB kvs q = true) :
    ∀ (fs : List Field) (t : Decl) (fAcc : List String) (tAcc : String)
      (acc : List (String × Json)) (out : List (List String))
      (kvs : List (String × Json)),
    (∀ f ∈ fs, fieldOKAux (consistentB root fuel) root t f = true) →
    (fs.map Field.name).Nodup →
    (∀ f ∈ fs, f.name ∉ acc.map Prod.fst) →
    extractFieldsAux (extractOptionalFieldsRecursive root expl fuel) root expl
      fs t fAcc tAcc = some out →
    genTemplateFieldsAux (generateEmptyJsonTemplate root fuel) root fs t acc
      = some kvs →
    ∀ p ∈ out, ∃ q, p = fAcc ++ q ∧ addressesB kvs q = true := by
  intro fs
  induction fs with
  | nil =>
    intro t fAcc tAcc acc out kvs _ _ _ hex _ p hp
    simp only [extractFieldsAux, Option.some.injEq] at hex
    subst hex
    cases hp
  | cons f fs ihl =>
    intro t fAcc tAcc acc out kvs hok hnd hfresh hex hgen p hp
    simp only [genTemplateFieldsAux] at hgen
    cases hval : getEmptyValueForTypeAux (generateEmptyJsonTemplate root fuel)
        root f.type t with
    | none => simp only [hval] at hgen; cases hgen
    | some v =>
    simp only [hval] at hgen
    obtain ⟨tail, hkvs, htail⟩ :=
      genTemplateFieldsAux_acc (generateEmptyJsonTemplate root fuel) root fs t
        _ kvs hgen
    have hfn : f.name ∉ acc.map Prod.fst := hfresh f (List.mem_cons_self f fs)
    have hjl : jlookup kvs f.name
        = some (if f.rule = some "repeated" then Json.arr [] else v) := by
      rw [hkvs, List.append_assoc, List.singleton_append,
        jlookup_append_of_not_mem _ _ _ hfn]
      simp [jlookup]
    have hokf := hok f (List.mem_cons_self f fs)
    simp only [List.map_cons, List.nodup_cons] at hnd
    have hfreshTail : ∀ g ∈ fs, g.name ∉
        (acc ++ [(f.name, if f.rule = some "repeated" then Json.arr [] else v)]).map
          Prod.fst := by
      intro g hg
      simp only [List.map_append, List.mem_append, List.map_cons, List.map_nil,
        List.mem_singleton, not_or]
      refine ⟨hfresh g (List.mem_cons_of_mem f hg), fun he => ?_⟩
      exact hnd.1 (he ▸ List.mem_map_of_mem Field.name hg)
    have hokTail : ∀ g ∈ fs, fieldOKAux (consistentB root fuel) root t g = true :=
      fun g hg => hok g (List.mem_cons_of_mem f hg)
    simp only [extractFieldsAux] at hex
    cases hres : resolvedMsg root f with
    | some m1 =>
      have htgt : extractTarget root t f = some m1 := by
        simp [extractTarget, hres]
      simp only [htgt] at hex
      simp only [fieldOKAux, hres, Bool.and_eq_true, and_assoc,
        Option.isNone_iff_eq_none, decide_eq_true_eq] at hokf
      obtain ⟨hrule, hprim, hts, hkey, hnest, hcons⟩ := hokf
      cases hsub : extractOptionalFieldsRecursive root expl fuel m1
          (fAcc ++ [f.name])
          (if tAcc = "" then declName t else tAcc ++ "." ++ declName t) with
      | none => simp only [hsub] at hex; cases hex
      | some sub =>
      simp only [hsub] at hex
      cases hrest : extractFieldsAux (extractOptionalFieldsRecursive root expl
          fuel) root expl fs t fAcc tAcc with
      | none => simp only [hrest] at hex; cases hex
      | some rest =>
      simp only [hrest] at hex
      simp only [Option.some.injEq] at hex
      subst hex
      have htr : templateResolve root t f.type = some m1 :=
        templateResolve_of_resolvedMsg root t f m1 hres hkey hnest
      have hmsg : ∃ n fs2 ns, m1 = Decl.msg n fs2 ns := by
        obtain ⟨k, n, fs2, ns, _, _, hm⟩ := resolvedMsg_eq_some root f m1 hres
        exact ⟨n, fs2, ns, hm⟩
      obtain ⟨kvs1, hgen1, hv⟩ :=
        c1_value_step root fuel t f m1 v hprim hts htr hmsg hval
      have hjl2 : jlookup kvs f.name = some (Json.obj kvs1) := by
        rw [hjl, if_neg hrule, hv]
      rcases List.mem_append.mp hp with hp1 | hp2
      · rcases List.mem_append.mp hp1 with hph | hps
        · have hpe := mem_if_singleton _ _ p hph
          refine ⟨[f.name], hpe, ?_⟩
          simp [addressesB, hjl2]
        · obtain ⟨q', hq', ha'⟩ := IH m1 (fAcc ++ [f.name]) _ sub kvs1 hcons hsub
            hgen1 p hps
          refine ⟨f.name :: q', by rw [hq', List.append_assoc]; rfl, ?_⟩
          exact addressesB_cons_obj kvs kvs1 f.name q' hjl2 ha'
      · exact ihl t fAcc tAcc _ rest kvs hokTail hnd.2 hfreshTail hrest hgen p hp2
    | none =>
      cases hnm : nestedMsgLookup t f.type with
      | some m1 =>
        have htgt : extractTarget root t f = some m1 := by
          simp [extractTarget, hres, hnm]
        simp only [htgt] at hex
        simp only [fieldOKAux, hres, hnm, Bool.and_eq_true, and_assoc,
          Option.isNone_iff_eq_none, decide_eq_true_eq] at hokf
        obtain ⟨hrule, hprim, hts, hcons⟩ := hokf
        cases hsub : extractOptionalFieldsRecursive root expl fuel m1
            (fAcc ++ [f.name])
            (if tAcc = "" then declName t else tAcc ++ "." ++ declName t) with
        | none => simp only [hsub] at hex; cases hex
        | some sub =>
        simp only [hsub] at hex
        cases hrest : extractFieldsAux (extractOptionalFieldsRecursive root expl
            fuel) root expl fs t fAcc tAcc with
        | none => simp only [hrest] at hex; cases hex
        | some rest =>
        simp only [hrest] at hex
        simp only [Option.some.injEq] at hex
        subst hex
        have htr : templateResolve root t f.type = some m1 :=
          templateResolve_of_nested root t f.type m1 hnm
        have hmsg : ∃ n fs2 ns, m1 = Decl.msg n fs2 ns := by
          obtain ⟨n, fs2, ns, _, hm⟩ := nestedMsgLookup_eq_some t f.type m1 hnm
          exact ⟨n, fs2, ns, hm⟩
        obtain ⟨kvs1, hgen1, hv⟩ :=
          c1_value_step root fuel t f m1 v hprim hts htr hmsg hval
        have hjl2 : jlookup kvs f.name = some (Json.obj kvs1) := by
          rw [hjl, if_neg hrule, hv]
        rcases List.mem_append.mp hp with hp1 | hp2
        · rcases List.mem_append.mp hp1 with hph | hps
          · have hpe := mem_if_singleton _ _ p hph
            refine ⟨[f.name], hpe, ?_⟩
            simp [addressesB, hjl2]
          · obtain ⟨q', hq', ha'⟩ := IH m1 (fAcc ++ [f.name]) _ sub kvs1 hcons
              hsub hgen1 p hps
            refine ⟨f.name :: q', by rw [hq', List.append_assoc]; rfl, ?_⟩
            exact addressesB_cons_obj kvs kvs1 f.name q' hjl2 ha'
        · exact ihl t fAcc tAcc _ rest kvs hokTail hnd.2 hfreshTail hrest hgen
            p hp2
      | none =>
        have htgt : extractTarget root t f = none := by
          simp [extractTarget, hres, hnm]
        simp only [htgt] at hex
        cases hrest : extractFieldsAux (extractOptionalFieldsRecursive root expl
            fuel) root expl fs t fAcc tAcc with
        | none => simp only [hrest] at hex; cases hex
        | some rest =>
        simp only [hrest] at hex
        simp only [Option.some.injEq] at hex
        subst hex
        rcases List.mem_append.mp hp with hp1 | hp2
        · rw [List.append_nil] at hp1
          have hpe := mem_if_singleton _ _ p hp1
          refine ⟨[f.name], hpe, ?_⟩
          simp [addressesB, hjl]
        · exact ihl t fAcc tAcc _ rest kvs hokTail hnd.2 hfreshTail hrest hgen
            p hp2

theorem c1_main (root : Root) (expl : List String) :
    ∀ (fuel : Nat) (t : Decl) (fAcc : List String) (tAcc : String)
      (out : List (List String)) (kvs : List (String × Json)),
    consistentB root fuel t = true →
    extractOptionalFieldsRecursive root expl fuel t fAcc tAcc = some out →
    generateEmptyJsonTemplate root fuel t = some kvs →
    ∀ p ∈ out, ∃ q, p = fAcc ++ q ∧ addressesB kvs q = true := by
  intro fuel
  induction fuel with
  | zero =>
    intro t fAcc tAcc out kvs hc
    simp [consistentB] at hc
  | succ n ih =>
    intro t fAcc tAcc out kvs hc hex hgen
    rw [consistentB, Bool.and_eq_true, decide_eq_true_eq] at hc
    obtain ⟨hnd, hall⟩ := hc
    rw [List.all_eq_true] at hall
    exact c1_fields_subset root expl n ih (declFields t) t fAcc tAcc [] out kvs
      hall hnd (by simp) hex hgen

/-! Claim theorems. -/

/-- Claim C1, counterexample. For the schema of textC1 the extractor descends
through the repeated field items into Inner and emits the occurrence path
items.x, but the template maps items to the empty array, so the path addresses
no key at depth two: the subset law fails as stated. -/
theorem c1_counterexample :
    ProtoScan.parseExplicitOptionalFields textC1 = ["Req.Inner.x"] ∧
    extractOptionalFieldsRecursive rootC1
      (ProtoScan.parseExplicitOptionalFields textC1) 5 declReq [] ""
      = some [["items", "x"]] ∧
    getOptionalFieldsFromTypeWithExplicit rootC1
      (ProtoScan.parseExplicitOptionalFields textC1) 5 declReq
      = some ["items.x"] ∧
    generateEmptyJsonTemplate rootC1 5 declReq = some [("items", Json.arr [])] ∧
    addressesB [("items", Json.arr [])] ["items", "x"] = false :=
  ⟨rfl, rfl, rfl, rfl, rfl⟩

/-- Claim C1, amended. The subset law holds for every schema in which the
extractor never descends through a repeated field and both walks resolve each
descended field to the same message declaration (the consistentB check, which
also excludes descending into the divergently handled timestamp type): every
component path produced by the extraction addresses a key of the generated
template at its exact nesting depth, and the dotted output of
getOptionalFieldsFromTypeWithExplicit is the dot-join of those paths. -/
theorem c1_subset_law_for_consistent_schemas (root : Root)
    (expl : List String) (fuel : Nat) (t : Decl) (out : List (List String))
    (kvs : List (String × Json))
    (hc : consistentB root fuel t = true)
    (hex : extractOptionalFieldsRecursive root expl fuel t [] "" = some out)
    (hgen : generateEmptyJsonTemplate root fuel t = some kvs) :
    getOptionalFieldsFromTypeWithExplicit root expl fuel t
      = some (out.map (fun p => String.intercalate "." p)) ∧
    ∀ p ∈ out, addressesB kvs p = true := by
  constructor
  · rw [getOptionalFieldsFromTypeWithExplicit, hex]
    rfl
  · intro p hp
    obtain ⟨q, hq, ha⟩ := c1_main root expl fuel t [] "" out kvs hc hex hgen p hp
    rwa [hq, List.nil_append]

/-- Witness for the amended claim C1 at the consistent schema rootW with the
explicit set holding Outer.a and Outer.Inner.x: all three produced occurrence
paths address template keys at their exact depth. -/
theorem c1_witness :
    consistentB rootW 3 declOuterW = true ∧
    ∀ p ∈ [["a"], ["a", "x"], ["b", "x"]],
      addressesB [("a", Json.obj [("x", Json.str "")]),
        ("b", Json.obj [("x", Json.str "")])] p = true :=
  ⟨rfl,
   (c1_subset_law_for_consistent_schemas rootW ["Outer.a", "Outer.Inner.x"] 3
     declOuterW [["a"], ["a", "x"], ["b", "x"]]
     [("a", Json.obj [("x", Json.str "")]), ("b", Json.obj [("x", Json.str "")])]
     rfl rfl rfl).2⟩

/-- Claim C2. The claim asserts that template generation and optional-field
extraction terminate on self-embedding message types because an explicit
maximum-nesting-depth guard truncates deeper occurrences to an empty string.
The code has no such guard: for the schema in which message M embeds itself as
the singular field next, both recursions exhaust every finite depth budget, so
no finite call depth completes them (at runtime the call stack overflows and
the per-method catch replaces the whole result, rather than a depth guard
truncating deeper occurrences). -/
theorem c2_no_recursion_guard :
    (∀ fuel, generateEmptyJsonTemplate rootC2 fuel declM2 = none) ∧
    (∀ fuel fAcc tAcc,
      extractOptionalFieldsRecursive rootC2 [] fuel declM2 fAcc tAcc = none) := by
  constructor
  · intro fuel
    induction fuel with
    | zero => rfl
    | succ n ih =>
      have hfields : declFields declM2 = [⟨"next", "M", none, false, some "M"⟩] := rfl
      have hval : getEmptyValueForTypeAux (generateEmptyJsonTemplate rootC2 n)
          rootC2 "M" declM2 = none := by
        show (generateEmptyJsonTemplate rootC2 n declM2).map Json.obj = none
        rw [ih]
        rfl
      simp only [generateEmptyJsonTemplate, genTemplateFieldsAux, hfields, hval]
  · intro fuel
    induction fuel with
    | zero => intro fAcc tAcc; rfl
    | succ n ih =>
      intro fAcc tAcc
      have hfields : declFields declM2 = [⟨"next", "M", none, false, some "M"⟩] := rfl
      have htgt : extractTarget rootC2 declM2 ⟨"next", "M", none, false, some "M"⟩
          = some declM2 := rfl
      simp only [extractOptionalFieldsRecursive, extractFieldsAux, hfields, htgt, ih]

/-- Claim C3, counterexample. The claim quantifies over any request type
containing Outer. For the schema of textC3b the scanner records the
type-chain path Outer.Inner.x, but for the request type R, which contains
Outer as the field o, the extractor builds the type-chain prefix starting at
R, compares R.Outer.Inner.x against the set, and finds nothing: the optional
list for R is empty, so it contains no paths ending in a.x or b.x. -/
theorem c3_counterexample :
    ProtoScan.parseExplicitOptionalFields textC3b = ["Outer.Inner.x"] ∧
    getOptionalFieldsFromTypeWithExplicit rootC3b
      (ProtoScan.parseExplicitOptionalFields textC3b) 5 declR = some [] :=
  ⟨rfl, rfl⟩

/-- Claim C3, amended. When the request type is Outer itself and Inner is
declared lexically nested inside Outer, detection is type-keyed rather than
occurrence-keyed: both occurrence paths a.x and b.x are produced from the one
recorded type-chain path Outer.Inner.x. -/
theorem c3_type_keyed_detection :
    ProtoScan.parseExplicitOptionalFields textC3 = ["Outer.Inner.x"] ∧
    getOptionalFieldsFromTypeWithExplicit rootC3
      (ProtoScan.parseExplicitOptionalFields textC3) 5 declOuter =
        some ["a.x", "b.x"] :=
  ⟨rfl, rfl⟩

/-- Claim C4. In a produced template, every repeated field is mapped to the
empty array, regardless of its element type: the computed per-type value is
overridden by the empty array before assignment. Field names within one
message are distinct (protobufjs enforces this), which makes the lookup in
the finished template well defined. -/
theorem c4_repeated_always_empty_array (root : Root) (fuel : Nat) (d : Decl)
    (kvs : List (String × Json)) (f : Field)
    (h : generateEmptyJsonTemplate root fuel d = some kvs)
    (hnd : ((declFields d).map Field.name).Nodup)
    (hf : f ∈ declFields d) (hrep : f.rule = some "repeated") :
    jlookup kvs f.name = some (Json.arr []) := by
  cases fuel with
  | zero => cases h
  | succ n =>
    exact c4_fields (generateEmptyJsonTemplate root n) root (declFields d) d
      [] kvs f h hnd (by simp) hf hrep

/-- Witness for claim C4 at the concrete schema rootC1: the repeated
message-typed field items is mapped to the empty array. -/
theorem c4_witness : jlookup [("items", Json.arr [])] "items" = some (Json.arr []) :=
  c4_repeated_always_empty_array rootC1 5 declReq [("items", Json.arr [])]
    ⟨"items", "Inner", some "repeated", false, some "Req.Inner"⟩
    rfl (by decide) (by decide) rfl

/-- Claim C5. A singular field whose declared type resolves (through the
source's nested-then-global cascade) to an enum type receives the name of the
first declared enum value, independent of numeric values or alphabetical
order. -/
theorem c5_enum_first_declared (root : Root) (fuel : Nat) (m : Decl)
    (ft n v : String) (vs : List String)
    (h1 : primitiveDefault ft = none)
    (h2 : ft ≠ "google.protobuf.Timestamp")
    (h3 : templateResolve root m ft = some (.enum n (v :: vs))) :
    getEmptyValueForType root fuel ft m = some (Json.str v) := by
  simp [getEmptyValueForType, getEmptyValueForTypeAux, h1, h2, h3]

/-- Witness for claim C5: for the enum Color with declared order B then A,
the produced default is B, the first declared value, although A is
alphabetically first. -/
theorem c5_witness : getEmptyValueForType rootEnum 5 "Color" dummyParent
    = some (Json.str "B") :=
  c5_enum_first_declared rootEnum 5 dummyParent "Color" "Color" "B" ["A"]
    rfl (by decide) rfl

/-- Claim C6. Every primitive declared type receives its exact table default
(empty string for string and bytes, false for bool, zero for every integer
width and for float and double, where the JavaScript number 0.0 is the same
value as 0), and a field whose declared type name resolves to nothing at all
degrades to the empty string instead of raising. -/
theorem c6_primitive_defaults_total :
    (∀ root fuel m, getEmptyValueForType root fuel "string" m = some (Json.str "")) ∧
    (∀ root fuel m, getEmptyValueForType root fuel "bytes" m = some (Json.str "")) ∧
    (∀ root fuel m, getEmptyValueForType root fuel "bool" m = some (Json.jbool false)) ∧
    (∀ root fuel m, getEmptyValueForType root fuel "int32" m = some (Json.num 0)) ∧
    (∀ root fuel m, getEmptyValueForType root fuel "int64" m = some (Json.num 0)) ∧
    (∀ root fuel m, getEmptyValueForType root fuel "uint32" m = some (Json.num 0)) ∧
    (∀ root fuel m, getEmptyValueForType root fuel "uint64" m = some (Json.num 0)) ∧
    (∀ root fuel m, getEmptyValueForType root fuel "sint32" m = some (Json.num 0)) ∧
    (∀ root fuel m, getEmptyValueForType root fuel "sint64" m = some (Json.num 0)) ∧
    (∀ root fuel m, getEmptyValueForType root fuel "fixed32" m = some (Json.num 0)) ∧
    (∀ root fuel m, getEmptyValueForType root fuel "fixed64" m = some (Json.num 0)) ∧
    (∀ root fuel m, getEmptyValueForType root fuel "sfixed32" m = some (Json.num 0)) ∧
    (∀ root fuel m, getEmptyValueForType root fuel "sfixed64" m = some (Json.num 0)) ∧
    (∀ root fuel m, getEmptyValueForType root fuel "float" m = some (Json.num 0)) ∧
    (∀ root fuel m, getEmptyValueForType root fuel "double" m = some (Json.num 0)) ∧
    (∀ root fuel m ft, primitiveDefault ft = none →
      ft ≠ "google.protobuf.Timestamp" →
      templateResolve root m ft = none →
      getEmptyValueForType root fuel ft m = some (Json.str "")) := by
  have hp : ∀ (ft0 : String) (j : Json), primitiveDefault ft0 = some j →
      ∀ root fuel m, getEmptyValueForType root fuel ft0 m = some j := by
    intro ft0 j hj root fuel m
    simp [getEmptyValueForType, getEmptyValueForTypeAux, hj]
  refine ⟨hp "string" _ rfl, hp "bytes" _ rfl, hp "bool" _ rfl, hp "int32" _ rfl,
    hp "int64" _ rfl, hp "uint32" _ rfl, hp "uint64" _ rfl, hp "sint32" _ rfl,
    hp "sint64" _ rfl, hp "fixed32" _ rfl, hp "fixed64" _ rfl,
    hp "sfixed32" _ rfl, hp "sfixed64" _ rfl, hp "float" _ rfl,
    hp "double" _ rfl, ?_⟩
  intro root fuel m ft h1 h2 h3
  simp [getEmptyValueForType, getEmptyValueForTypeAux, h1, h2, h3]

/-- Witness for claim C6: the primitive defaults at a concrete schema, and
the unresolvable type name Nope in an empty arena degrading to the empty
string. -/
theorem c6_witness :
    getEmptyValueForType [] 3 "string" dummyParent = some (Json.str "") ∧
    getEmptyValueForType [] 3 "Nope" dummyParent = some (Json.str "") :=
  ⟨c6_primitive_defaults_total.1 [] 3 dummyParent,
   c6_primitive_defaults_total.2.2.2.2.2.2.2.2.2.2.2.2.2.2.2 [] 3 dummyParent
     "Nope" rfl (by decide) rfl⟩

/-- Claim C7. A method whose declared request type is not resolvable in the
root still appears in both flat catalogs, with an empty template and an empty
optional-field list, and every other method of the walk also receives its
catalog entry: one failing method does not abort the build. -/
theorem c7_method_failure_isolated (root : Root) (fuel : Nat)
    (expl : List String) (entries : List NsEntry) (mn rt : String)
    (hmem : (mn, rt) ∈ methodsOfList entries)
    (huniq : ∀ rt', (mn, rt') ∈ methodsOfList entries → rt' = rt)
    (hfail : lookupType root rt = none) :
    jlookup (extractServices root fuel entries) mn = some [] ∧
    jlookup (extractOptionalFields root expl fuel entries) mn = some [] ∧
    ∀ mn' rt', (mn', rt') ∈ methodsOfList entries →
      (jlookup (extractServices root fuel entries) mn').isSome ∧
      (jlookup (extractOptionalFields root expl fuel entries) mn').isSome := by
  have hlast := lastRequest_eq_of_unique (methodsOfList entries) mn rt hmem huniq
  refine ⟨?_, ?_, ?_⟩
  · rw [extractServices, jlookup_foldl_objInsert (processMethodTemplate root fuel),
      hlast]
    simp [processMethodTemplate, hfail]
  · rw [extractOptionalFields,
      jlookup_foldl_objInsert (processMethodOptional root expl fuel), hlast]
    simp [processMethodOptional, hfail]
  · intro mn' rt' hmem'
    have hs := lastRequest_isSome_of_mem (methodsOfList entries) mn' rt' hmem'
    constructor
    · rw [extractServices, jlookup_foldl_objInsert (processMethodTemplate root fuel)]
      cases hl : lastRequest (methodsOfList entries) mn' with
      | none => rw [hl] at hs; cases hs
      | some r => simp
    · rw [extractOptionalFields,
        jlookup_foldl_objInsert (processMethodOptional root expl fuel)]
      cases hl : lastRequest (methodsOfList entries) mn' with
      | none => rw [hl] at hs; cases hs
      | some r => simp

/-- Witness for claim C7 at the concrete catalog entriesC7: the method Bad
with unresolvable request type Missing still gets an empty entry while the
method Good is present. -/
theorem c7_witness :
    jlookup (extractServices rootC7 3 entriesC7) "Bad" = some [] ∧
    (jlookup (extractServices rootC7 3 entriesC7) "Good").isSome := by
  have h := c7_method_failure_isolated rootC7 3 [] entriesC7 "Bad" "Missing"
    (by simp [entriesC7, methodsOfList])
    (by intro rt' hmem; simp [entriesC7, methodsOfList] at hmem; exact hmem)
    rfl
  exact ⟨h.1, (h.2.2 "Good" "T" (by simp [entriesC7, methodsOfList])).1⟩

/-- Claim C8. When two services each declare a method with the same bare
name, the flat catalog holds exactly one entry under that name and its value
is the template computed for the request type of the service visited last in
the walk. -/
theorem c8_bare_name_last_wins (root : Root) (fuel : Nat) (rt1 rt2 : String) :
    extractServices root fuel
      [NsEntry.svc [("Get", rt1)], NsEntry.svc [("Get", rt2)]] =
      [("Get", processMethodTemplate root fuel rt2)] := by
  simp [extractServices, methodsOfList, objInsert]

/-- Witness for claim C8 at a concrete instance: an empty arena and two
services both declaring Get. -/
theorem c8_witness :
    extractServices [] 1 [NsEntry.svc [("Get", "A")], NsEntry.svc [("Get", "B")]]
      = [("Get", processMethodTemplate [] 1 "B")] :=
  c8_bare_name_last_wins [] 1 "A" "B"

/-- Claim C9. A field whose declared type string is exactly the literal
google.protobuf.Timestamp is short-circuited to the empty string before any
lookup, whatever the arena holds; a field whose declared type resolves under
any other spelling to the pre-seeded two-field Timestamp message receives the
nested template with seconds and nanos both zero. -/
theorem c9_timestamp_spelling :
    (∀ root fuel m, getEmptyValueForType root fuel "google.protobuf.Timestamp" m
      = some (Json.str "")) ∧
    (∀ root fuel m ft, primitiveDefault ft = none →
      ft ≠ "google.protobuf.Timestamp" →
      templateResolve root m ft = some timestampDecl →
      getEmptyValueForType root (fuel + 1) ft m
        = some (Json.obj [("seconds", Json.num 0), ("nanos", Json.num 0)])) := by
  constructor
  · intro root fuel m
    rfl
  · intro root fuel m ft h1 h2 h3
    have ht : generateEmptyJsonTemplate root (fuel + 1) timestampDecl
        = some [("seconds", Json.num 0), ("nanos", Json.num 0)] := rfl
    simp only [getEmptyValueForType, getEmptyValueForTypeAux, h1, if_neg h2, h3]
    show (generateEmptyJsonTemplate root (fuel + 1) timestampDecl).map Json.obj = _
    rw [ht]
    rfl

/-- Witness for claim C9: in the arena rootTs the literal spelling yields the
empty string while the spelling Timestamp, resolving to the pre-seeded
message, yields the nested seconds and nanos template. -/
theorem c9_witness :
    getEmptyValueForType rootTs 3 "google.protobuf.Timestamp" dummyParent
      = some (Json.str "") ∧
    getEmptyValueForType rootTs 3 "Timestamp" dummyParent
      = some (Json.obj [("seconds", Json.num 0), ("nanos", Json.num 0)]) :=
  ⟨c9_timestamp_spelling.1 rootTs 3 dummyParent,
   c9_timestamp_spelling.2 rootTs 2 dummyParent "Timestamp" rfl (by decide) rfl⟩

/-- Claim C10. For the source textC10, in which message M encloses an enum
block followed by an explicitly optional field x, the closing brace of the
enum block pops M off the scanner stack, so the field is recorded under the
bare path x instead of M.x; consequently the extractor, which looks up the
type-chain path M.x, matches nothing and the optional list for M is empty. -/
theorem c10_brace_pop_drops_enclosing_message :
    ProtoScan.parseExplicitOptionalFields textC10 = ["x"] ∧
    getOptionalFieldsFromTypeWithExplicit rootC10
      (ProtoScan.parseExplicitOptionalFields textC10) 5 declM10 = some [] :=
  ⟨rfl, rfl⟩

end ProtoParser
